import Mathlib

/-!
Shallow embedding of the MAC_Lab1 Giophantus prototype.

The repository has two variants of the cryptosystem core:

* a procedural variant (the file with `keygen` / `encrypt` / `decrypt`,
  embedded below in namespace `Gio`), whose polynomial arithmetic reads the
  ambient configuration values `q`, `n`, `l`, `dX`, `dr` (in the source these
  are module-level globals naming the fields of the selected parameter set;
  here they are passed explicitly);
* an OOP variant (`main.cpp`, embedded in namespace `OOP`) whose polynomial
  arithmetic uses the compile-time constant `MODULO = 17`.

C++ `int` values are modelled as `Int`; all values reached by the arithmetic
under the data-model parameter ranges (q ≤ 29) stay far below 2^31, so no
wrap-around is modelled.  C++ `%` on `int` is truncating division remainder,
modelled by `Int.tmod`.  The C++ `std::mt19937` randomness source is modelled
as an arbitrary stream `rng : Nat → Nat` of draws together with a cursor `k`;
`std::uniform_int_distribution<>(0, b)` applied to a draw is modelled as the
draw reduced `% (b+1)`, which reproduces exactly the support `[0, b]` of the
distribution.
-/

namespace Gio

/-- Parameter set of the procedural variant (`GiophantusParams` in the
source): prime field modulus `q`, ring dimension `n`, encoding bound `l`,
public-key degree `dX`, randomness degree `dr`, message length `mlen`.
The C++ fields are `int`; all presets are nonnegative, so `Nat` is used for
the structural parameters. -/
structure GiophantusParams where
  q : Nat
  n : Nat
  l : Nat
  dX : Nat
  dr : Nat
  mlen : Nat
deriving DecidableEq, Repr

/-- Preset `param128 = {17, 11, 4, 2, 2, 32}` from the source. -/
def param128 : GiophantusParams := ⟨17, 11, 4, 2, 2, 32⟩

/-- Preset `param192 = {23, 19, 6, 3, 3, 48}` from the source. -/
def param192 : GiophantusParams := ⟨23, 19, 6, 3, 3, 48⟩

/-- Preset `param256 = {29, 23, 8, 4, 4, 64}` from the source. -/
def param256 : GiophantusParams := ⟨29, 23, 8, 4, 4, 64⟩

/-- The source's field-normalization function `mod(a, p) = ((a % p) + p) % p`,
with C++ truncating `%` modelled by `Int.tmod`. -/
def fmod (a p : Int) : Int := ((a.tmod p) + p).tmod p

/-- The source's `add(a, b, p) = mod(a + b, p)`. -/
def fadd (a b p : Int) : Int := fmod (a + b) p

/-- The source's `mul(a, b, p) = mod(a * b, p)`. -/
def fmul (a b p : Int) : Int := fmod (a * b) p

/-- The source's `sub(a, b, p) = mod(a - b, p)`. -/
def fsub (a b p : Int) : Int := fmod (a - b) p

/-- A `Polynomial` of the source is its little-endian coefficient vector
`std::vector<int>`, modelled as `List Int`. -/
abbrev Poly := List Int

/-- The source's `Polynomial::degree() = coeffs.size() - 1`.  The `size_t`
subtraction followed by the C++20 (two's complement) conversion to `int`
yields `-1` on the empty vector, so over `Int` it is `length - 1`. -/
def degree (A : Poly) : Int := (A.length : Int) - 1

/-- The source's `Polynomial::trim()`: pop trailing zero coefficients while
the vector is nonempty and its back is `0`.  Popping from the back until the
predicate fails is dropping the longest zero prefix of the reversed vector. -/
def trim (A : Poly) : Poly := (A.reverse.dropWhile (fun c => c == 0)).reverse

/-- The source's `Polynomial::operator+` (procedural variant): result size is
`max` of the sizes, each slot `i` is `add(a, b, q)` where a missing
coefficient reads as `0`; `q` is the ambient field modulus. -/
def polyAdd (q : Int) (A B : Poly) : Poly :=
  (List.range (max A.length B.length)).map (fun i => fadd (A.getD i 0) (B.getD i 0) q)

/-- Inner loop of `Polynomial::operator*`: for a fixed row coefficient `a`
(= `A[i]`) walk the coefficients of `B`; the write cursor `idx` starts at `i`
and moves with `j`, performing `res[i+j] = add(res[i+j], mul(a, B[j], q), q)`. -/
def mulInner (q a : Int) : Poly → Nat → Poly → Poly
  | [], _, res => res
  | b :: bs, idx, res =>
      mulInner q a bs (idx + 1) (res.set idx (fadd (res.getD idx 0) (fmul a b q) q))

/-- Outer loop of `Polynomial::operator*`: walk the coefficients of `A` with
row index `i`, running the inner loop for each. -/
def mulOuter (q : Int) : Poly → Nat → Poly → Poly → Poly
  | [], _, _, res => res
  | a :: as, i, B, res => mulOuter q as (i + 1) B (mulInner q a B i res)

/-- Body of `Polynomial::operator*`: allocate `coeffs.size() +
other.coeffs.size() - 1` zeros and run the two accumulation loops. -/
def polyMulLoop (q : Int) (A B : Poly) : Poly :=
  mulOuter q A 0 B (List.replicate (A.length + B.length - 1) 0)

/-- The source's `Polynomial::operator*`.  The result size is computed in
`size_t` arithmetic as `A.size() + B.size() - 1`; when both operands are
empty this underflows to `2^64 - 1` and the `std::vector` allocation throws,
so the product of two empty polynomials is modelled as `none`. -/
def polyMul (q : Int) (A B : Poly) : Option Poly :=
  if A.length + B.length = 0 then none else some (polyMulLoop q A B)

/-- Loop of `Polynomial::mod_tn()`: for each input coefficient at position
`i` (cursor `i` incremented along the list) accumulate
`result[i % n] = add(result[i % n], coeffs[i], q)`. -/
def modTnGo (q : Int) (n : Nat) : Poly → Nat → Poly → Poly
  | [], _, res => res
  | c :: cs, i, res =>
      modTnGo q n cs (i + 1) (res.set (i % n) (fadd (res.getD (i % n) 0) c q))

/-- The source's `Polynomial::mod_tn()`: the result vector is resized to `n`
zeros and every input coefficient is folded into slot `i % n` with field
addition; `n` is the ambient ring dimension. -/
def modTn (q : Int) (n : Nat) (A : Poly) : Poly :=
  modTnGo q n A 0 (List.replicate n 0)

/-- The source's `random_polynomial(degree, max_coeff)`: a vector of
`degree + 1` draws from `uniform_int_distribution<>(0, max_coeff - 1)`,
i.e. each drawn value reduced into `[0, max_coeff)`. -/
def random_polynomial (deg maxc : Nat) (rng : Nat → Nat) (k : Nat) : Poly :=
  (List.range (deg + 1)).map (fun i => ((rng (k + i)) % maxc : Nat))

/-- The source's `is_irreducible`: the placeholder validator that accepts
every candidate. -/
def is_irreducible (_X : Poly) : Bool := true

/-- The retry loop of `generate_irreducible_X`, made explicit in the
validator predicate `valid` and instrumented with `fuel` counting loop
iterations: `while (true) { X = random_polynomial(dX, q - 1); if (valid(X))
break; }`.  A `none` result means the loop has not exited within `fuel`
iterations; the source contains no other exit and no error path. -/
def generateXLoop (valid : Poly → Bool) (dX maxc : Nat) (rng : Nat → Nat) :
    Nat → Nat → Option Poly
  | _, 0 => none
  | k, fuel + 1 =>
      let X := random_polynomial dX maxc rng k
      if valid X then some X else generateXLoop valid dX maxc rng (k + dX + 1) fuel

/-- The source's `generate_irreducible_X` as it actually executes: since
`is_irreducible` always accepts, the loop returns its first candidate
`random_polynomial(dX, q - 1)`. -/
def generate_irreducible_X (dX maxc : Nat) (rng : Nat → Nat) (k : Nat) : Poly :=
  random_polynomial dX maxc rng k

/-- The source's `keygen()`: `ux = random_polynomial(n-1, l)`,
`uy = random_polynomial(n-1, l)`, `X = generate_irreducible_X(ux, uy)`
(which draws from `random_polynomial(dX, q-1)`); the ambient globals
`n`, `l`, `dX`, `q` are the fields of the selected parameter set.  The
randomness cursor advances by the number of draws of each step. -/
def keygen (p : GiophantusParams) (rng : Nat → Nat) : Poly × Poly × Poly :=
  let ux := random_polynomial (p.n - 1) p.l rng 0
  let uy := random_polynomial (p.n - 1) p.l rng p.n
  let X := generate_irreducible_X p.dX (p.q - 1) rng (2 * p.n)
  (ux, uy, X)

/-- The source's `encrypt(message, public_key, params)`:
`r = random_polynomial(params.dr, params.q - 1)`,
`e = random_polynomial(params.dX + params.dr, params.l - 1)`,
`ciphertext = (message + (public_key * r).mod_tn() + e).mod_tn()`.
The multiplication `public_key * r` is run through `polyMulLoop` directly:
`r` has `dr + 1 ≥ 1` coefficients, so the size computation of `operator*`
cannot underflow here. -/
def encrypt (p : GiophantusParams) (message X : Poly) (rng : Nat → Nat) (k : Nat) : Poly :=
  let r := random_polynomial p.dr (p.q - 1) rng k
  let e := random_polynomial (p.dX + p.dr) (p.l - 1) rng (k + p.dr + 1)
  modTn (p.q : Int) p.n
    (polyAdd (p.q : Int)
      (polyAdd (p.q : Int) message (modTn (p.q : Int) p.n (polyMulLoop (p.q : Int) X r)))
      e)

/-- The source's `decrypt(ciphertext, ux, uy)`: each coefficient of the
ciphertext is replaced by `mod(coeff, l)` in place; the secret polynomials
`ux`, `uy` are parameters of the C++ function but are never read, and the
ambient global `l` is the selected parameter set's field.  There is no
length check and no error path. -/
def decrypt (l : Int) (ct : Poly) : Poly := ct.map (fun c => fmod c l)

end Gio

namespace OOP

/-- Parameter structure of the OOP variant (`GiophantusParams` in
`main.cpp`): `{modulo, degree, noise_bound, block_size}`. -/
structure OOPParams where
  modulo : Nat
  degree : Nat
  noise_bound : Nat
  block_size : Nat
deriving DecidableEq, Repr

/-- The compile-time constant `MODULO = 17` of `main.cpp`. -/
def MODULO : Int := 17

/-- `main.cpp`'s `Polynomial::operator+`: identical loop to the procedural
variant's, but the field addition is instantiated at the compile-time
constant `MODULO`, never at a parameter set's modulus. -/
def polyAdd (A B : Gio.Poly) : Gio.Poly := Gio.polyAdd MODULO A B

/-- `main.cpp`'s `Polynomial::operator*`: identical double loop to the
procedural variant's, instantiated at the compile-time constant `MODULO`;
the same `size_t` underflow on two empty operands applies. -/
def polyMul (A B : Gio.Poly) : Option Gio.Poly := Gio.polyMul MODULO A B

/-- `main.cpp`'s `RandomPolynomialGenerator::generate(degree, max_coeff)`:
a vector of `degree + 1` draws from
`uniform_int_distribution<>(0, max_coeff)` — bounds inclusive, so each
value lies in `[0, max_coeff]`. -/
def generate (deg maxc : Nat) (rng : Nat → Nat) (k : Nat) : Gio.Poly :=
  (List.range (deg + 1)).map (fun i => ((rng (k + i)) % (maxc + 1) : Nat))

/-- `main.cpp`'s `GiophantusKeyGen::generate(params)`:
`ux = rng.generate(params.degree, params.noise_bound)`,
`uy = rng.generate(params.degree, params.noise_bound)`,
`X = rng.generate(params.degree, params.modulo - 1)`. -/
def generateKey (p : OOPParams) (rng : Nat → Nat) : Gio.Poly × Gio.Poly × Gio.Poly :=
  let ux := generate p.degree p.noise_bound rng 0
  let uy := generate p.degree p.noise_bound rng (p.degree + 1)
  let X := generate p.degree (p.modulo - 1) rng (2 * (p.degree + 1))
  (ux, uy, X)

end OOP

namespace Gio

/-- Truncating remainder by a positive modulus is strictly above `-p`. -/
lemma tmod_pos_lower (a p : Int) (hp : 0 < p) : -p < a.tmod p := by
  rcases a with m | m
  · have h0 : (0:Int) ≤ Int.ofNat m := Int.ofNat_nonneg m
    have := Int.tmod_nonneg p h0
    omega
  · rcases p with k | k
    · have h1 : (Int.negSucc m).tmod (Int.ofNat k) = -Int.ofNat (m.succ % k) := rfl
      simp only [Int.ofNat_eq_natCast] at h1 hp ⊢
      have hk : 0 < k := by exact_mod_cast hp
      have h2 : m.succ % k < k := Nat.mod_lt _ hk
      rw [h1]
      omega
    · exact absurd hp (by simp)

/-- The source's `mod` computes the mathematical (Euclidean) remainder for
every `int` input once the modulus is positive. -/
lemma fmod_eq_emod (a p : Int) (hp : 0 < p) : fmod a p = a % p := by
  have hlow : -p < a.tmod p := tmod_pos_lower a p hp
  have hnn : 0 ≤ a.tmod p + p := by omega
  unfold fmod
  rw [Int.tmod_eq_emod hnn (le_of_lt hp)]
  have hd : a.tmod p = a - p * a.tdiv p := by
    have := Int.tmod_add_tdiv a p
    omega
  rw [hd]
  have h3 : a - p * a.tdiv p + p = a + p * (1 - a.tdiv p) := by ring
  rw [h3, Int.add_mul_emod_self_left]

lemma fmod_nonneg (a p : Int) (hp : 0 < p) : 0 ≤ fmod a p := by
  rw [fmod_eq_emod a p hp]
  exact Int.emod_nonneg a (ne_of_gt hp)

lemma fmod_lt (a p : Int) (hp : 0 < p) : fmod a p < p := by
  rw [fmod_eq_emod a p hp]
  exact Int.emod_lt_of_pos a hp

lemma fadd_eq_emod (a b p : Int) (hp : 0 < p) : fadd a b p = (a + b) % p :=
  fmod_eq_emod (a + b) p hp

lemma fmul_eq_emod (a b p : Int) (hp : 0 < p) : fmul a b p = (a * b) % p :=
  fmod_eq_emod (a * b) p hp

lemma fadd_mem (a b p : Int) (hp : 0 < p) : 0 ≤ fadd a b p ∧ fadd a b p < p :=
  ⟨fmod_nonneg _ p hp, fmod_lt _ p hp⟩

/-- Folding a field addition over an already-reduced accumulator agrees with
reducing the plain sum: `add(x % p, y', p) = (x + y) % p` whenever
`y' = y % p`. -/
lemma fadd_emod_emod (x y p : Int) (hp : 0 < p) :
    fadd (x % p) (y % p) p = (x + y) % p := by
  rw [fadd_eq_emod _ _ p hp, Int.emod_add_emod, Int.add_comm, Int.emod_add_emod,
    Int.add_comm]

lemma getD_set_self {res : Poly} {idx : Nat} {v : Int} (h : idx < res.length) :
    (res.set idx v).getD idx 0 = v := by
  rw [List.getD_eq_getElem?_getD, List.getElem?_set, if_pos rfl, if_pos h]
  rfl

lemma getD_set_ne {res : Poly} {idx k : Nat} {v : Int} (h : idx ≠ k) :
    (res.set idx v).getD k 0 = res.getD k 0 := by
  rw [List.getD_eq_getElem?_getD, List.getElem?_set, if_neg h,
    ← List.getD_eq_getElem?_getD]

lemma getD_replicate_zero (m k : Nat) : (List.replicate m (0:Int)).getD k 0 = 0 := by
  rcases lt_or_le k m with h | h
  · rw [List.getD_eq_getElem _ _ (by simpa using h), List.getElem_replicate]
  · exact List.getD_eq_default _ _ (by simpa using h)

lemma ext_getD {A B : Poly} (hlen : A.length = B.length)
    (h : ∀ k, k < A.length → A.getD k 0 = B.getD k 0) : A = B := by
  refine List.ext_getElem hlen (fun k h1 h2 => ?_)
  have := h k h1
  rwa [List.getD_eq_getElem _ _ h1, List.getD_eq_getElem _ _ h2] at this

lemma trim_replicate_zero (m : Nat) : trim (List.replicate m 0) = [] := by
  unfold trim
  rw [List.reverse_replicate]
  have h : (List.replicate m (0:Int)).dropWhile (fun c => c == 0) = [] := by
    induction m with
    | zero => rfl
    | succ m ih => rw [List.replicate_succ, List.dropWhile_cons_of_pos (by simp)]; exact ih
  rw [h, List.reverse_nil]

end Gio

namespace Gio

lemma mulInner_length (q a : Int) : ∀ (B : Poly) (idx : Nat) (res : Poly),
    (mulInner q a B idx res).length = res.length := by
  intro B
  induction B with
  | nil => intro idx res; rfl
  | cons b bs ih =>
      intro idx res
      rw [mulInner, ih, List.length_set]

lemma mulInner_getD (q a : Int) : ∀ (B res : Poly) (idx k : Nat),
    idx + B.length ≤ res.length →
    (mulInner q a B idx res).getD k 0 =
      if idx ≤ k ∧ k < idx + B.length then
        fadd (res.getD k 0) (fmul a (B.getD (k - idx) 0) q) q
      else res.getD k 0 := by
  intro B
  induction B with
  | nil =>
      intro res idx k _
      rw [mulInner, if_neg (by simp only [List.length_nil]; omega)]
  | cons b bs ih =>
      intro res idx k hb
      simp only [List.length_cons] at hb
      have hidx : idx < res.length := by omega
      rw [mulInner]
      rw [ih _ (idx + 1) k (by simp only [List.length_set]; omega)]
      by_cases h1 : idx + 1 ≤ k ∧ k < idx + 1 + bs.length
      · rw [if_pos h1, if_pos (by simp only [List.length_cons]; omega)]
        rw [getD_set_ne (by omega)]
        have hk : k - idx = (k - (idx + 1)) + 1 := by omega
        rw [hk, List.getD_cons_succ]
      · rw [if_neg h1]
        by_cases h2 : k = idx
        · subst h2
          rw [getD_set_self hidx, if_pos (by simp only [List.length_cons]; omega)]
          have h3 : k - k = 0 := by omega
          rw [h3, List.getD_cons_zero]
        · rw [getD_set_ne (fun h => h2 h.symm),
            if_neg (by simp only [List.length_cons]; omega)]

lemma mulOuter_length (q : Int) : ∀ (As : Poly) (i : Nat) (B res : Poly),
    (mulOuter q As i B res).length = res.length := by
  intro As
  induction As with
  | nil => intro i B res; rfl
  | cons a as ih =>
      intro i B res
      rw [mulOuter, ih, mulInner_length]

/-- Partial convolution: contribution of the rows `As` (placed from row
index `i`) to output coefficient `k`. -/
def convFrom (B : Poly) : Poly → Nat → Nat → Int
  | [], _, _ => 0
  | a :: as, i, k =>
      (if i ≤ k ∧ k < i + B.length then a * B.getD (k - i) 0 else 0) + convFrom B as (i + 1) k

lemma mulOuter_getD (q : Int) (hq : 0 < q) (B : Poly) : ∀ (As res : Poly) (i : Nat) (S : Nat → Int),
    (∀ k, k < res.length → res.getD k 0 = S k % q) →
    i + As.length + B.length ≤ res.length + 1 →
    ∀ k, k < res.length →
      (mulOuter q As i B res).getD k 0 = (S k + convFrom B As i k) % q := by
  intro As
  induction As with
  | nil =>
      intro res i S hS _ k hk
      rw [mulOuter, convFrom, Int.add_zero]
      exact hS k hk
  | cons a as ih =>
      intro res i S hS hb k hk
      simp only [List.length_cons] at hb
      rw [mulOuter]
      have hres' : (mulInner q a B i res).length = res.length := mulInner_length q a B i res
      have hbound : i + B.length ≤ res.length := by omega
      have hS' : ∀ j, j < (mulInner q a B i res).length →
          (mulInner q a B i res).getD j 0 =
            (fun j => S j + (if i ≤ j ∧ j < i + B.length then a * B.getD (j - i) 0 else 0)) j % q := by
        intro j hj
        rw [hres'] at hj
        show (mulInner q a B i res).getD j 0 =
          (S j + (if i ≤ j ∧ j < i + B.length then a * B.getD (j - i) 0 else 0)) % q
        rw [mulInner_getD q a B res i j hbound]
        by_cases h : i ≤ j ∧ j < i + B.length
        · rw [if_pos h, if_pos h, hS j hj, fmul_eq_emod _ _ _ hq, fadd_emod_emod _ _ _ hq]
        · rw [if_neg h, if_neg h, hS j hj, Int.add_zero]
      have hrec := ih (mulInner q a B i res) (i + 1)
        (fun j => S j + (if i ≤ j ∧ j < i + B.length then a * B.getD (j - i) 0 else 0))
        hS' (by rw [hres']; omega) k (by rw [hres']; exact hk)
      rw [hrec, convFrom]
      show (S k + (if i ≤ k ∧ k < i + B.length then a * B.getD (k - i) 0 else 0) +
        convFrom B as (i + 1) k) % q = _
      rw [Int.add_assoc]

lemma polyMulLoop_length (q : Int) (A B : Poly) :
    (polyMulLoop q A B).length = A.length + B.length - 1 := by
  rw [polyMulLoop, mulOuter_length, List.length_replicate]

lemma polyMulLoop_getD (q : Int) (hq : 0 < q) (A B : Poly) :
    ∀ k, k < A.length + B.length - 1 →
      (polyMulLoop q A B).getD k 0 = convFrom B A 0 k % q := by
  intro k hk
  have h0 : ∀ j, j < (List.replicate (A.length + B.length - 1) (0:Int)).length →
      (List.replicate (A.length + B.length - 1) (0:Int)).getD j 0 = (fun _ => (0:Int)) j % q := by
    intro j _
    rw [getD_replicate_zero]
    show (0:Int) = 0 % q
    rw [Int.zero_emod]
  have hres := mulOuter_getD q hq B A (List.replicate (A.length + B.length - 1) 0) 0
    (fun _ => 0) h0 (by rw [List.length_replicate]; omega) k
    (by rw [List.length_replicate]; exact hk)
  rw [polyMulLoop, hres]
  show ((0:Int) + convFrom B A 0 k) % q = _
  rw [Int.zero_add]

end Gio

namespace Gio

/-- Formula of the specification for `multiply`: output coefficient `k` is
the sum over all index pairs `i + j = k` of `A[i] * B[j]`, reduced `mod q`
(the reduction is applied where the formula is used).  This definition
follows the claim's words, to be compared against the loops of `operator*`. -/
def convSum (A B : Poly) (k : Nat) : Int :=
  ∑ i ∈ Finset.range A.length, ∑ j ∈ Finset.range B.length,
    (if i + j = k then A.getD i 0 * B.getD j 0 else 0)

lemma sum_indicator_shift (m i k : Nat) (c : Nat → Int) :
    (∑ j ∈ Finset.range m, if i + j = k then c j else 0) =
    if i ≤ k ∧ k < i + m then c (k - i) else 0 := by
  rcases le_or_lt i k with hik | hik
  · have hstep : (∑ j ∈ Finset.range m, if i + j = k then c j else 0) =
        ∑ j ∈ Finset.range m, if j = k - i then c j else 0 :=
      Finset.sum_congr rfl (fun j _ => if_congr (by omega) rfl rfl)
    rw [hstep, Finset.sum_ite_eq' (Finset.range m) (k - i) c]
    by_cases h2 : k - i ∈ Finset.range m
    · rw [if_pos h2, if_pos (by rw [Finset.mem_range] at h2; omega)]
    · rw [if_neg h2, if_neg (by rw [Finset.mem_range] at h2; omega)]
  · rw [Finset.sum_eq_zero (fun j _ => if_neg (by omega)), if_neg (by omega)]

lemma convFrom_eq_sum (B : Poly) : ∀ (As : Poly) (i k : Nat),
    convFrom B As i k =
      ∑ x ∈ Finset.range As.length, ∑ j ∈ Finset.range B.length,
        (if i + x + j = k then As.getD x 0 * B.getD j 0 else 0) := by
  intro As
  induction As with
  | nil =>
      intro i k
      rw [convFrom, List.length_nil]
      rw [Finset.range_zero, Finset.sum_empty]
  | cons a as ih =>
      intro i k
      rw [convFrom, ih (i + 1) k, List.length_cons, Finset.sum_range_succ', Int.add_comm]
      congr 1
      · refine Finset.sum_congr rfl (fun x _ => Finset.sum_congr rfl (fun j _ => ?_))
        have he : i + (x + 1) + j = i + 1 + x + j := by omega
        rw [List.getD_cons_succ, he]
      · have hshift := sum_indicator_shift B.length i k (fun j => a * B.getD j 0)
        rw [← hshift]
        refine Finset.sum_congr rfl (fun j _ => ?_)
        have he : i + 0 + j = i + j := by omega
        rw [List.getD_cons_zero, he]

/-- The product loop computes the specification's convolution formula. -/
lemma polyMulLoop_eq_convSum (q : Int) (hq : 0 < q) (A B : Poly) :
    ∀ k, k < A.length + B.length - 1 →
      (polyMulLoop q A B).getD k 0 = convSum A B k % q := by
  intro k hk
  rw [polyMulLoop_getD q hq A B k hk, convFrom_eq_sum B A 0 k, convSum]
  congr 1
  refine Finset.sum_congr rfl (fun x _ => Finset.sum_congr rfl (fun j _ => ?_))
  have he : 0 + x + j = x + j := by omega
  rw [he]

lemma convSum_eq_zero_of_ge (A B : Poly) (k : Nat)
    (hk : A.length + B.length - 1 ≤ k) : convSum A B k = 0 := by
  refine Finset.sum_eq_zero (fun i hi => Finset.sum_eq_zero (fun j hj => ?_))
  rw [Finset.mem_range] at hi hj
  exact if_neg (by omega)

end Gio

namespace Gio

lemma modTnGo_length (q : Int) (n : Nat) : ∀ (A : Poly) (i : Nat) (res : Poly),
    (modTnGo q n A i res).length = res.length := by
  intro A
  induction A with
  | nil => intro i res; rfl
  | cons c cs ih =>
      intro i res
      rw [modTnGo, ih, List.length_set]

lemma modTn_length (q : Int) (n : Nat) (A : Poly) : (modTn q n A).length = n := by
  rw [modTn, modTnGo_length, List.length_replicate]

lemma modTnGo_getD (q : Int) (n : Nat) : ∀ (A res : Poly) (i k : Nat),
    res.length = n → i + A.length ≤ n →
    (modTnGo q n A i res).getD k 0 =
      if i ≤ k ∧ k < i + A.length then
        fadd (res.getD k 0) (A.getD (k - i) 0) q
      else res.getD k 0 := by
  intro A
  induction A with
  | nil =>
      intro res i k _ _
      rw [modTnGo, if_neg (by simp only [List.length_nil]; omega)]
  | cons c cs ih =>
      intro res i k hres hb
      simp only [List.length_cons] at hb
      have hi : i % n = i := Nat.mod_eq_of_lt (by omega)
      have hidx : i < res.length := by omega
      rw [modTnGo, hi]
      rw [ih _ (i + 1) k (by rw [List.length_set]; exact hres) (by omega)]
      by_cases h1 : i + 1 ≤ k ∧ k < i + 1 + cs.length
      · rw [if_pos h1, if_pos (by simp only [List.length_cons]; omega)]
        rw [getD_set_ne (by omega)]
        have hk : k - i = (k - (i + 1)) + 1 := by omega
        rw [hk, List.getD_cons_succ]
      · rw [if_neg h1]
        by_cases h2 : k = i
        · subst h2
          rw [getD_set_self hidx, if_pos (by simp only [List.length_cons]; omega)]
          have h3 : k - k = 0 := by omega
          rw [h3, List.getD_cons_zero]
        · rw [getD_set_ne (fun h => h2 h.symm),
            if_neg (by simp only [List.length_cons]; omega)]

lemma modTnGo_mem (q : Int) (n : Nat) (hq : 0 < q) : ∀ (A : Poly) (i : Nat) (res : Poly),
    (∀ c ∈ res, 0 ≤ c ∧ c < q) → ∀ c ∈ modTnGo q n A i res, 0 ≤ c ∧ c < q := by
  intro A
  induction A with
  | nil => intro i res hres; exact hres
  | cons c cs ih =>
      intro i res hres
      rw [modTnGo]
      refine ih (i + 1) _ (fun x hx => ?_)
      rcases List.mem_or_eq_of_mem_set hx with h | h
      · exact hres x h
      · subst h; exact fadd_mem _ _ q hq

/-- Every coefficient of a ring-reduced polynomial lies in `[0, q)`. -/
lemma modTn_mem (q : Int) (n : Nat) (hq : 0 < q) (A : Poly) :
    ∀ c ∈ modTn q n A, 0 ≤ c ∧ c < q := by
  refine modTnGo_mem q n hq A 0 _ (fun c hc => ?_)
  rw [List.mem_replicate] at hc
  rw [hc.2]
  exact ⟨le_refl 0, hq⟩

/-- Ring reduction leaves an already-reduced polynomial (length `n`,
coefficients in `[0, q)`) unchanged. -/
lemma modTn_fixed (q : Int) (n : Nat) (hq : 0 < q) (A : Poly)
    (hlen : A.length = n) (hmem : ∀ c ∈ A, 0 ≤ c ∧ c < q) : modTn q n A = A := by
  refine ext_getD (by rw [modTn_length, hlen]) (fun k hk => ?_)
  rw [modTn_length] at hk
  rw [modTn, modTnGo_getD q n A _ 0 k (List.length_replicate _ _) (by omega),
    if_pos (by omega)]
  have hk' : k - 0 = k := by omega
  have hkA : k < A.length := by omega
  have hmemk : 0 ≤ A.getD k 0 ∧ A.getD k 0 < q := by
    refine hmem _ ?_
    rw [List.getD_eq_getElem _ _ hkA]
    exact List.getElem_mem hkA
  rw [getD_replicate_zero, hk', fadd, fmod_eq_emod _ _ hq, Int.zero_add,
    Int.emod_eq_of_lt hmemk.1 hmemk.2]

/-- Ring reduction is idempotent. -/
lemma modTn_idem (q : Int) (n : Nat) (hq : 0 < q) (A : Poly) :
    modTn q n (modTn q n A) = modTn q n A :=
  modTn_fixed q n hq _ (modTn_length q n A) (modTn_mem q n hq A)

lemma polyAdd_length (q : Int) (A B : Poly) :
    (polyAdd q A B).length = max A.length B.length := by
  rw [polyAdd, List.length_map, List.length_range]

lemma polyAdd_getD_lt (q : Int) (A B : Poly) (i : Nat) (h : i < max A.length B.length) :
    (polyAdd q A B).getD i 0 = fadd (A.getD i 0) (B.getD i 0) q := by
  rw [polyAdd, List.getD_eq_getElem _ _ (by rw [List.length_map, List.length_range]; exact h),
    List.getElem_map, List.getElem_range]

lemma polyAdd_getD (q : Int) (hq : 0 < q) (A B : Poly) (i : Nat) :
    (polyAdd q A B).getD i 0 = (A.getD i 0 + B.getD i 0) % q := by
  rcases lt_or_le i (max A.length B.length) with h | h
  · rw [polyAdd_getD_lt q A B i h, fadd_eq_emod _ _ _ hq]
  · have hA : A.getD i 0 = 0 := List.getD_eq_default _ _ (by omega)
    have hB : B.getD i 0 = 0 := List.getD_eq_default _ _ (by omega)
    have hout : (polyAdd q A B).getD i 0 = 0 :=
      List.getD_eq_default _ _ (by rw [polyAdd_length]; exact h)
    rw [hA, hB, hout, Int.add_zero, Int.zero_emod]

lemma random_polynomial_length (deg maxc : Nat) (rng : Nat → Nat) (k : Nat) :
    (random_polynomial deg maxc rng k).length = deg + 1 := by
  rw [random_polynomial, List.length_map, List.length_range]

lemma random_polynomial_mem (deg maxc : Nat) (hm : 0 < maxc) (rng : Nat → Nat) (k : Nat) :
    ∀ c ∈ random_polynomial deg maxc rng k, 0 ≤ c ∧ c < (maxc : Int) := by
  intro c hc
  rw [random_polynomial, List.mem_map] at hc
  obtain ⟨i, _, hi⟩ := hc
  have hlt : (rng (k + i)) % maxc < maxc := Nat.mod_lt _ hm
  constructor
  · rw [← hi]; exact Int.ofNat_nonneg _
  · rw [← hi]; exact_mod_cast hlt

lemma oop_generate_length (deg maxc : Nat) (rng : Nat → Nat) (k : Nat) :
    (OOP.generate deg maxc rng k).length = deg + 1 := by
  rw [OOP.generate, List.length_map, List.length_range]

lemma oop_generate_mem (deg maxc : Nat) (rng : Nat → Nat) (k : Nat) :
    ∀ c ∈ OOP.generate deg maxc rng k, 0 ≤ c ∧ c ≤ (maxc : Int) := by
  intro c hc
  rw [OOP.generate, List.mem_map] at hc
  obtain ⟨i, _, hi⟩ := hc
  have hlt : (rng (k + i)) % (maxc + 1) < maxc + 1 := Nat.mod_lt _ (Nat.succ_pos maxc)
  constructor
  · rw [← hi]; exact Int.ofNat_nonneg _
  · rw [← hi]; exact_mod_cast Nat.lt_succ_iff.mp hlt

end Gio

/-- Claim C1: for every valid parameter set, key pair from `generate`, and
message with length ≤ mlen and coefficients in [0, l), decryption inverts
encryption after trimming.  The code violates this: at `param128` with the
message `[1, 0, 3]` and a randomness source that always draws `1`, key
generation yields `X = [1, 1, 1]`, and decrypting the encryption of the
message yields `[3, 3, 3, 3, 2]`, not `[1, 0, 3]` — the mask `X·r` and the
noise `e` are never removed, since `decrypt` ignores the secret key. -/
theorem claim_C1_roundtrip_fails_on_param128 :
    Gio.keygen Gio.param128 (fun _ => 1) =
      (List.replicate 11 1, List.replicate 11 1, [1, 1, 1])
    ∧ Gio.trim (Gio.decrypt (Gio.param128.l : Int)
        (Gio.encrypt Gio.param128 [1, 0, 3] [1, 1, 1] (fun _ => 1) 0)) = [3, 3, 3, 3, 2]
    ∧ Gio.trim [1, 0, 3] = [1, 0, 3]
    ∧ ([3, 3, 3, 3, 2] : Gio.Poly) ≠ [1, 0, 3] :=
  ⟨by decide, by decide, by decide, by decide⟩

/-- Claim C2: `generate` must terminate for every validator — returning a
validated key or failing with `KeyGenerationExhausted` within a bounded
number of retries.  The code violates this: with a validator that rejects
every candidate, the `while (true)` loop of `generate_irreducible_X` has not
produced a result after any number of iterations (and the source defines no
`KeyGenerationExhausted` error at all). -/
theorem claim_C2_reject_validator_loops_forever (dX maxc : Nat) (rng : Nat → Nat) :
    ∀ (fuel k : Nat), Gio.generateXLoop (fun _ => false) dX maxc rng k fuel = none := by
  intro fuel
  induction fuel with
  | zero => intro k; rfl
  | succ fuel ih => intro k; exact ih (k + dX + 1)

/-- Claim C3 (counterexample): the claim as stated fails on the OOP variant's
`GiophantusKeyGen::generate`: with parameters `{17, 11, 4, 32}` and a
randomness source always drawing `4`, the secret `ux` has degree `11`
(not ≤ `11 - 1`) and coefficient `4` (not `< 4`). -/
theorem claim_C3_counterexample_oop :
    ¬ (Gio.degree (OOP.generateKey ⟨17, 11, 4, 32⟩ (fun _ => 4)).1 ≤ (11 : Int) - 1
       ∧ ∀ c ∈ (OOP.generateKey ⟨17, 11, 4, 32⟩ (fun _ => 4)).1, c < (4 : Int)) := by
  decide

/-- Claim C3 (amended): every key pair from the procedural `keygen` has
`ux.degree() = n - 1 ≤ n - 1` and `uy.degree() = n - 1` with all secret
coefficients in `[0, l)`; the OOP variant's `generate` instead returns
secrets of degree exactly `params.degree` with coefficients in
`[0, noise_bound]` inclusive. -/
theorem claim_C3_keygen_postconditions (p : Gio.GiophantusParams) (hn : 1 ≤ p.n)
    (hl : 0 < p.l) (rng : Nat → Nat) :
    (Gio.degree (Gio.keygen p rng).1 = (p.n : Int) - 1
      ∧ Gio.degree (Gio.keygen p rng).2.1 = (p.n : Int) - 1
      ∧ (∀ c ∈ (Gio.keygen p rng).1, 0 ≤ c ∧ c < (p.l : Int))
      ∧ (∀ c ∈ (Gio.keygen p rng).2.1, 0 ≤ c ∧ c < (p.l : Int)))
    ∧ (∀ (op : OOP.OOPParams) (rng2 : Nat → Nat),
        Gio.degree (OOP.generateKey op rng2).1 = (op.degree : Int)
        ∧ ∀ c ∈ (OOP.generateKey op rng2).1, 0 ≤ c ∧ c ≤ (op.noise_bound : Int)) := by
  have hdeg : ∀ (rng2 : Nat → Nat) (k : Nat),
      Gio.degree (Gio.random_polynomial (p.n - 1) p.l rng2 k) = (p.n : Int) - 1 := by
    intro rng2 k
    rw [Gio.degree, Gio.random_polynomial_length]
    have h1 : p.n - 1 + 1 = p.n := by omega
    rw [h1]
  refine ⟨⟨hdeg rng 0, hdeg rng p.n,
    Gio.random_polynomial_mem _ _ hl rng 0, Gio.random_polynomial_mem _ _ hl rng p.n⟩,
    fun op rng2 => ⟨?_, Gio.oop_generate_mem _ _ rng2 0⟩⟩
  show Gio.degree (OOP.generate op.degree op.noise_bound rng2 0) = (op.degree : Int)
  rw [Gio.degree, Gio.oop_generate_length]
  push_cast
  ring

/-- Claim C3 witness: the procedural postconditions at `param128` with the
all-zero randomness source. -/
theorem claim_C3_witness :
    Gio.degree (Gio.keygen Gio.param128 (fun _ => 0)).1 = (Gio.param128.n : Int) - 1
    ∧ ∀ c ∈ (Gio.keygen Gio.param128 (fun _ => 0)).1, 0 ≤ c ∧ c < (Gio.param128.l : Int) :=
  ⟨(claim_C3_keygen_postconditions Gio.param128 (by decide) (by decide) (fun _ => 0)).1.1,
   (claim_C3_keygen_postconditions Gio.param128 (by decide) (by decide) (fun _ => 0)).1.2.2.1⟩

/-- Claim C4 (counterexample): the claim as stated fails: `decrypt` performs
no length validation, so on a ciphertext of length `2 ≠ n = 11` (here at
`param128`, `l = 4`) it succeeds and returns the wrong-length result
`[1, 2]` instead of failing with `InvalidCiphertextLength`. -/
theorem claim_C4_counterexample :
    Gio.decrypt (Gio.param128.l : Int) [5, 6] = [1, 2]
    ∧ ([5, 6] : Gio.Poly).length ≠ Gio.param128.n
    ∧ ([1, 2] : Gio.Poly).length ≠ Gio.param128.n := by
  decide

/-- Claim C4 (amended): `decrypt` never fails and performs no length check:
for every ciphertext it returns a polynomial of the same length whose `i`-th
coefficient is the ciphertext's `i`-th coefficient reduced `mod l`. -/
theorem claim_C4_decrypt_reduces_mod_l (l : Int) (hl : 0 < l) (ct : Gio.Poly) :
    (Gio.decrypt l ct).length = ct.length
    ∧ ∀ i : Nat, (Gio.decrypt l ct).getD i 0 = (ct.getD i 0) % l := by
  constructor
  · rw [Gio.decrypt, List.length_map]
  · intro i
    have h0 : Gio.fmod 0 l = 0 := by
      rw [Gio.fmod_eq_emod _ _ hl, Int.zero_emod]
    rw [Gio.decrypt, ← h0, List.getD_map, Gio.fmod_eq_emod _ _ hl, h0]

/-- Claim C4 witness: the amended statement at `l = 4`, ciphertext `[5, 6]`. -/
theorem claim_C4_witness :
    (Gio.decrypt 4 [5, 6]).length = ([5, 6] : Gio.Poly).length
    ∧ ∀ i : Nat, (Gio.decrypt 4 [5, 6]).getD i 0 = (([5, 6] : Gio.Poly).getD i 0) % 4 :=
  claim_C4_decrypt_reduces_mod_l 4 (by decide) [5, 6]

/-- Claim C5 (counterexample): the claim as stated fails on the OOP variant's
`RandomPolynomialGenerator::generate`, whose distribution bounds are
inclusive: with `coefficient_bound = 4` and a randomness state drawing `4`,
the sampled coefficient equals `4`, not strictly below the bound. -/
theorem claim_C5_counterexample :
    ¬ (∀ c ∈ OOP.generate 0 4 (fun _ => 4) 0, c < (4 : Int)) := by
  decide

/-- Claim C5 (amended): for every degree bound, positive coefficient bound
and randomness state, the procedural `random_polynomial` returns a
polynomial of length `degree_bound + 1` with every coefficient in
`[0, coefficient_bound)`; the OOP variant's `generate` returns the same
length but draws from the inclusive range `[0, coefficient_bound]`. -/
theorem claim_C5_sampler_bounds :
    (∀ (deg maxc : Nat), 0 < maxc → ∀ (rng : Nat → Nat) (k : Nat),
      (Gio.random_polynomial deg maxc rng k).length = deg + 1
      ∧ ∀ c ∈ Gio.random_polynomial deg maxc rng k, 0 ≤ c ∧ c < (maxc : Int))
    ∧ (∀ (deg maxc : Nat) (rng : Nat → Nat) (k : Nat),
      (OOP.generate deg maxc rng k).length = deg + 1
      ∧ ∀ c ∈ OOP.generate deg maxc rng k, 0 ≤ c ∧ c ≤ (maxc : Int)) :=
  ⟨fun deg maxc hm rng k =>
    ⟨Gio.random_polynomial_length deg maxc rng k, Gio.random_polynomial_mem deg maxc hm rng k⟩,
   fun deg maxc rng k =>
    ⟨Gio.oop_generate_length deg maxc rng k, Gio.oop_generate_mem deg maxc rng k⟩⟩

/-- Claim C5 witness: the strict-bound statement at degree bound `2`,
coefficient bound `4`, constant-`7` randomness. -/
theorem claim_C5_witness :
    (Gio.random_polynomial 2 4 (fun _ => 7) 0).length = 2 + 1
    ∧ ∀ c ∈ Gio.random_polynomial 2 4 (fun _ => 7) 0, 0 ≤ c ∧ c < ((4 : Nat) : Int) :=
  claim_C5_sampler_bounds.1 2 4 (by decide) (fun _ => 7) 0

/-- Claim C6: the OOP variant's `operator+` and `operator*` always reduce
modulo the compile-time constant `MODULO = 17` — the operators take no
parameter set at all, so this holds whatever parameter set the harness
selected: each sum slot is `(A[i] + B[i]) mod 17`, and each product
coefficient is the convolution sum reduced `mod 17`. -/
theorem claim_C6_oop_fixed_modulus (A B : Gio.Poly) :
    (∀ i : Nat, (OOP.polyAdd A B).getD i 0 = (A.getD i 0 + B.getD i 0) % 17)
    ∧ (∀ C, OOP.polyMul A B = some C →
        ∀ k : Nat, C.getD k 0 = Gio.convSum A B k % 17) := by
  constructor
  · intro i
    exact Gio.polyAdd_getD 17 (by decide) A B i
  · intro C hC k
    rw [OOP.polyMul, OOP.MODULO, Gio.polyMul] at hC
    by_cases hz : A.length + B.length = 0
    · rw [if_pos hz] at hC
      exact absurd hC (by simp)
    · rw [if_neg hz] at hC
      have hCeq : C = Gio.polyMulLoop 17 A B := by
        injection hC with h
        exact h.symm
      subst hCeq
      rcases lt_or_le k (A.length + B.length - 1) with hk | hk
      · exact Gio.polyMulLoop_eq_convSum 17 (by decide) A B k hk
      · rw [List.getD_eq_default _ _ (by rw [Gio.polyMulLoop_length]; exact hk),
          Gio.convSum_eq_zero_of_ge A B k hk, Int.zero_emod]

/-- Claim C6 witness: both formulas at concrete inputs. -/
theorem claim_C6_witness :
    (OOP.polyAdd [5] [20]).getD 0 0 = (([5] : Gio.Poly).getD 0 0 + ([20] : Gio.Poly).getD 0 0) % 17
    ∧ ([3, 6] : Gio.Poly).getD 0 0 = Gio.convSum [1, 2] [3] 0 % 17 :=
  ⟨(claim_C6_oop_fixed_modulus [5] [20]).1 0,
   (claim_C6_oop_fixed_modulus [1, 2] [3]).2 [3, 6] (by decide) 0⟩

/-- Claim C7: `reduce_ring` (the source's `mod_tn`) returns a polynomial of
length exactly `n` for every input (the result vector is resized to `n`
before accumulation); consequently ring-reduced sums and products of
length-`n` ring elements have length `n`, and every ciphertext returned by
`encrypt` has length exactly `n`. -/
theorem claim_C7_ring_reduction_length (q : Int) (n : Nat) (hn : 1 ≤ n) :
    (∀ A : Gio.Poly, (Gio.modTn q n A).length = n)
    ∧ (∀ A B : Gio.Poly, (Gio.modTn q n (Gio.polyAdd q A B)).length = n)
    ∧ (∀ A B : Gio.Poly, A.length = n → B.length = n →
        ∃ C, Gio.polyMul q A B = some C ∧ (Gio.modTn q n C).length = n)
    ∧ (∀ (p : Gio.GiophantusParams) (m X : Gio.Poly) (rng : Nat → Nat) (k : Nat),
        (Gio.encrypt p m X rng k).length = p.n) := by
  refine ⟨fun A => Gio.modTn_length q n A,
    fun A B => Gio.modTn_length q n _,
    fun A B hA hB => ?_,
    fun p m X rng k => Gio.modTn_length _ _ _⟩
  refine ⟨Gio.polyMulLoop q A B, ?_, Gio.modTn_length q n _⟩
  rw [Gio.polyMul, if_neg (by omega)]

/-- Claim C7 witness: lengths at `n = 11`: a short input to `mod_tn` and a
full encryption at `param128`. -/
theorem claim_C7_witness :
    (Gio.modTn 17 11 [1, 2, 3]).length = 11
    ∧ (Gio.encrypt Gio.param128 [1, 0, 3] [1, 1, 1] (fun _ => 1) 0).length = Gio.param128.n :=
  ⟨(claim_C7_ring_reduction_length 17 11 (by decide)).1 [1, 2, 3],
   (claim_C7_ring_reduction_length 17 11 (by decide)).2.2.2 Gio.param128 [1, 0, 3] [1, 1, 1]
     (fun _ => 1) 0⟩

/-- Claim C8: ring reduction is idempotent, and reducing an already-reduced
element (length `n`, coefficients in `[0, q)`) returns it unchanged. -/
theorem claim_C8_ring_reduction_idempotent (q : Int) (n : Nat) (hq : 0 < q) :
    (∀ A : Gio.Poly, Gio.modTn q n (Gio.modTn q n A) = Gio.modTn q n A)
    ∧ (∀ A : Gio.Poly, A.length = n → (∀ c ∈ A, 0 ≤ c ∧ c < q) →
        Gio.modTn q n A = A) :=
  ⟨fun A => Gio.modTn_idem q n hq A, fun A hlen hmem => Gio.modTn_fixed q n hq A hlen hmem⟩

/-- Claim C8 witness: idempotence at `q = 17`, `n = 11` on `[20, 5]`, and
the fixed point at `q = 17`, `n = 3` on the reduced element `[1, 2, 3]`. -/
theorem claim_C8_witness :
    Gio.modTn 17 11 (Gio.modTn 17 11 [20, 5]) = Gio.modTn 17 11 [20, 5]
    ∧ Gio.modTn 17 3 [1, 2, 3] = [1, 2, 3] :=
  ⟨(claim_C8_ring_reduction_idempotent 17 11 (by decide)).1 [20, 5],
   (claim_C8_ring_reduction_idempotent 17 3 (by decide)).2 [1, 2, 3] (by decide) (by decide)⟩

/-- Claim C9 (counterexample): the claim as stated fails for the pair of
empty polynomials: the `size_t` result-size computation `0 + 0 - 1`
underflows and the vector allocation throws, so `multiply` returns no
polynomial at all (the claimed length `-1` is not attainable). -/
theorem claim_C9_counterexample :
    ¬ ∃ C, Gio.polyMul 17 ([] : Gio.Poly) ([] : Gio.Poly) = some C := by
  rintro ⟨C, hC⟩
  simp [Gio.polyMul] at hC

/-- Claim C9 (amended): for every pair of polynomials with at least one
nonempty, `multiply` returns the field convolution: output length is
`len A + len B - 1` and output coefficient `k` is the sum over all index
pairs `i + j = k` of `A[i]·B[j]`, reduced `mod q`; multiplying two empty
polynomials fails (allocation-size underflow). -/
theorem claim_C9_multiply_convolution (q : Int) (hq : 0 < q) (A B : Gio.Poly)
    (h : 0 < A.length + B.length) :
    ∃ C, Gio.polyMul q A B = some C
      ∧ C.length = A.length + B.length - 1
      ∧ ∀ k, k < C.length → C.getD k 0 = Gio.convSum A B k % q := by
  refine ⟨Gio.polyMulLoop q A B, ?_, Gio.polyMulLoop_length q A B, ?_⟩
  · rw [Gio.polyMul, if_neg (by omega)]
  · intro k hk
    rw [Gio.polyMulLoop_length] at hk
    exact Gio.polyMulLoop_eq_convSum q hq A B k hk

/-- Claim C9 witness: the convolution law at `q = 17`, `A = [2, 3]`,
`B = [1, 4]`. -/
theorem claim_C9_witness :
    ∃ C, Gio.polyMul 17 [2, 3] [1, 4] = some C
      ∧ C.length = ([2, 3] : Gio.Poly).length + ([1, 4] : Gio.Poly).length - 1
      ∧ ∀ k, k < C.length → C.getD k 0 = Gio.convSum [2, 3] [1, 4] k % 17 :=
  claim_C9_multiply_convolution 17 (by decide) [2, 3] [1, 4] (by decide)

/-- Claim C10 (counterexample): the claim as stated fails at `A = zero`:
multiplying the empty (zero) polynomial by itself does not return the zero
polynomial — the `size_t` size computation underflows and the allocation
throws, so no result exists at all. -/
theorem claim_C10_counterexample :
    ¬ ∃ C, Gio.polyMul 17 ([] : Gio.Poly) ([] : Gio.Poly) = some C
        ∧ Gio.trim C = Gio.trim ([] : Gio.Poly) := by
  rintro ⟨C, hC, _⟩
  simp [Gio.polyMul] at hC

/-- Claim C10 (amended): the empty polynomial has degree `-1`; `zero + A`
equals `A` (on trimmed sequences) for every polynomial `A` with coefficients
in `[0, q)`; and `zero * A` is the zero polynomial for every nonempty `A`;
`zero * zero` itself fails with an allocation error. -/
theorem claim_C10_zero_polynomial (q : Int) (hq : 0 < q) :
    Gio.degree [] = -1
    ∧ (∀ A : Gio.Poly, (∀ c ∈ A, 0 ≤ c ∧ c < q) →
        Gio.trim (Gio.polyAdd q [] A) = Gio.trim A)
    ∧ (∀ A : Gio.Poly, A ≠ [] →
        ∃ C, Gio.polyMul q [] A = some C ∧ Gio.trim C = []) := by
  refine ⟨by decide, fun A hmem => ?_, fun A hne => ?_⟩
  · have hadd : Gio.polyAdd q [] A = A := by
      refine Gio.ext_getD ?_ (fun k hk => ?_)
      · rw [Gio.polyAdd_length]
        simp
      · rw [Gio.polyAdd_length] at hk
        have hkA : k < A.length := by simp at hk; exact hk
        have hmemk : 0 ≤ A.getD k 0 ∧ A.getD k 0 < q := by
          refine hmem _ ?_
          rw [List.getD_eq_getElem _ _ hkA]
          exact List.getElem_mem hkA
        rw [Gio.polyAdd_getD q hq [] A k]
        have hnil : List.getD ([] : Gio.Poly) k 0 = 0 := rfl
        rw [hnil, Int.zero_add]
        exact Int.emod_eq_of_lt hmemk.1 hmemk.2
    rw [hadd]
  · have hlen : A.length ≠ 0 := fun h => hne (List.length_eq_zero.mp h)
    refine ⟨Gio.polyMulLoop q [] A, ?_, ?_⟩
    · rw [Gio.polyMul, if_neg (by simp only [List.length_nil]; omega)]
    · show Gio.trim (Gio.mulOuter q [] 0 A
        (List.replicate (([] : Gio.Poly).length + A.length - 1) 0)) = []
      rw [Gio.mulOuter]
      exact Gio.trim_replicate_zero _

/-- Claim C10 witness: the amended statement at `q = 17`: degree is part of
the applied theorem, `zero + [3, 0]` trims like `[3, 0]`, and
`zero * [5]` trims to zero. -/
theorem claim_C10_witness :
    Gio.trim (Gio.polyAdd 17 [] [3, 0]) = Gio.trim [3, 0]
    ∧ ∃ C, Gio.polyMul 17 [] [5] = some C ∧ Gio.trim C = [] :=
  ⟨(claim_C10_zero_polynomial 17 (by decide)).2.1 [3, 0] (by decide),
   (claim_C10_zero_polynomial 17 (by decide)).2.2 [5] (by decide)⟩
